/-
Verification of the juju tools-catalog resolver and upgrade coordinator
against their specification.

The definitions below are a shallow embedding of the Go code in
`environs/tools/simplestreams.go` (catalog resolver and constraint
matcher).  Where the code under verification lives outside that file
(the simplestreams `GetMetadata` driver, the `version` package's
`IsDev` predicate, the upgrader worker), the corresponding definition
is modelled from the specification and says so in its doc comment.

Conventions of the embedding:
* Go `version.Number` is a record of four integers; `ToolsMetadata`
  carries the parsed number directly (the Go code stores the string and
  re-parses it with `MustParse` at each use; all claims concern
  parseable versions).
* Go maps keyed by `version.Binary` are embedded as association lists
  with replace-on-insert semantics; Go's unspecified map iteration
  order is fixed to insertion order, which is one admissible order, and
  no claim below depends on the order.
* Fallible Go functions return `Except JujuError`.
-/
import Mathlib

set_option maxRecDepth 10000

namespace Juju

/-- Embeds Go `strings.HasPrefix` as a check on the character lists of
the two strings. -/
def strHasPre (pre s : String) : Bool := pre.data.isPrefixOf s.data

/-- Embeds Go `version.Number` (package `version`): a structured,
comparable version number with major/minor/patch/build components. -/
structure Number where
  major : Int
  minor : Int
  patch : Int
  build : Int
deriving DecidableEq, Repr

/-- Embeds Go `version.Zero`, the zero `version.Number`. -/
def Number.zero : Number := ⟨0, 0, 0, 0⟩

/-- Embeds Go `version.Binary`: a version number qualified by series
(platform) and architecture.  This is the identity key of a descriptor. -/
structure Binary where
  number : Number
  series : String
  arch : String
deriving DecidableEq, Repr

/-- Embeds Go `ToolsMetadata` (simplestreams.go lines 77-86): one
catalog record.  `Size = 0` and empty `SHA256` mean the record is
unresolved. -/
structure ToolsMetadata where
  Release : String
  Version : Number
  Arch : String
  Size : Int
  Path : String
  FullPath : String
  FileType : String
  SHA256 : String
deriving DecidableEq, Repr

/-- Embeds `(*ToolsMetadata).binary()` (simplestreams.go lines 94-100):
the identity key of a record. -/
def ToolsMetadata.binary (t : ToolsMetadata) : Binary :=
  ⟨t.Version, t.Release, t.Arch⟩

/-- Association-list embedding of a Go `map[version.Binary]*ToolsMetadata`
write: replace the existing entry with the same key, else append. -/
def mapInsert : List (Binary × ToolsMetadata) → Binary → ToolsMetadata →
    List (Binary × ToolsMetadata)
  | [], k, v => [(k, v)]
  | (k', v') :: rest, k, v =>
    if k' = k then (k, v) :: rest else (k', v') :: mapInsert rest k v

/-- Association-list embedding of a Go map read. -/
def mapLookup : List (Binary × ToolsMetadata) → Binary → Option ToolsMetadata
  | [], _ => none
  | (k', v') :: rest, k => if k' = k then some v' else mapLookup rest k

/-- The first record in a plain list whose identity key is `k`. -/
def findByKey (l : List ToolsMetadata) (k : Binary) : Option ToolsMetadata :=
  l.find? (fun tm => decide (tm.binary = k))

/-- Every pair stored in the map has the record's own identity as its key.
This holds for every map the embedded code builds, since entries are
always inserted under `tm.binary`. -/
def keyConsistent (m : List (Binary × ToolsMetadata)) : Prop :=
  ∀ p ∈ m, (p.2).binary = p.1

/-- Embeds the first loop of `MergeMetadata`: load a list of records
into a map keyed by identity. -/
def loadMap (init : List (Binary × ToolsMetadata)) (l : List ToolsMetadata) :
    List (Binary × ToolsMetadata) :=
  l.foldl (fun m tm => mapInsert m tm.binary tm) init

/-- Embeds the second loop of `MergeMetadata` (simplestreams.go lines
245-250): an old record fills the slot when it is empty or holds an
unresolved (Size = 0) record. -/
def mergeOldStep (m : List (Binary × ToolsMetadata)) (tm : ToolsMetadata) :
    List (Binary × ToolsMetadata) :=
  match mapLookup m tm.binary with
  | none => mapInsert m tm.binary tm
  | some existing => if existing.Size = 0 then mapInsert m tm.binary tm else m

/-- Embeds Go `MergeMetadata` (simplestreams.go lines 240-256): merge
new and old metadata keyed by identity; a resolved entry takes
precedence, and among two resolved entries the new one wins. -/
def MergeMetadata (newMetadata oldMetadata : List ToolsMetadata) : List ToolsMetadata :=
  let merged := loadMap [] newMetadata
  let merged := oldMetadata.foldl mergeOldStep merged
  merged.map Prod.snd

/-- Embeds the `errors` package as far as the tools package uses it: an
error is either a NotFound error (`errors.IsNotFoundError` is true of
it) or some other error carrying a message. -/
inductive JujuError where
  | notFound (msg : String)
  | other (msg : String)
deriving DecidableEq, Repr

/-- Embeds Go `errors.IsNotFoundError`. -/
def isNotFoundError : JujuError → Bool
  | .notFound _ => true
  | .other _ => false

/-- Embeds a simplestreams `DataSource` as far as the tools package uses
it: `url p` is the resolved URL of path `p` relative to the source, and
`url ""` is the source's base URL (Go `source.URL("")`; the error return
of `URL` is discarded by the code under verification, lines 113 and 182). -/
structure DataSource where
  url : String → String

/-- Embeds Go `ToolsConstraint` (simplestreams.go lines 39-45): the
lookup parameters' series/arches plus version-family fields.  A negative
`MajorVersion`/`MinorVersion` means unconstrained. -/
structure ToolsConstraint where
  Series : List String
  Arches : List String
  Version : Number
  MajorVersion : Int
  MinorVersion : Int
  Released : Bool

/-- Embeds `NewVersionedToolsConstraint` (lines 48-51): an
exact-version constraint; family fields are left at their zero values. -/
def NewVersionedToolsConstraint (vers : Number) (series arches : List String) :
    ToolsConstraint :=
  ⟨series, arches, vers, 0, 0, false⟩

/-- Embeds `NewGeneralToolsConstraint` (lines 54-57): a family
constraint; the version is `version.Zero`. -/
def NewGeneralToolsConstraint (majorVersion minorVersion : Int) (released : Bool)
    (series arches : List String) : ToolsConstraint :=
  ⟨series, arches, Number.zero, majorVersion, minorVersion, released⟩

/-- The version filter of `appendMatchingTools` (simplestreams.go lines
163-179), as one predicate: with `version.Zero` (a family constraint)
apply the released/major/minor filters, otherwise require exact version
equality.  `isDev` stands for `version.Number.IsDev` of the `version`
package, which is not part of the verified sources; it is passed as a
parameter so every theorem below holds for any development-build
predicate. -/
def versionMatches (isDev : Number → Bool) (cons : ToolsConstraint)
    (tm : ToolsMetadata) : Bool :=
  if cons.Version = Number.zero then
    if cons.Released ∧ isDev tm.Version then false
    else if 0 ≤ cons.MajorVersion ∧ cons.MajorVersion ≠ tm.Version.major then false
    else if 0 ≤ cons.MinorVersion ∧ cons.MinorVersion ≠ tm.Version.minor then false
    else true
  else decide (cons.Version = tm.Version)

/-- Embeds the side effect `tm.FullPath, _ = source.URL(tm.Path)`
(line 182): the retained record's resolved location is computed from its
originating source. -/
def setFullPath (source : DataSource) (tm : ToolsMetadata) : ToolsMetadata :=
  { tm with FullPath := source.url tm.Path }

/-- Embeds Go `appendMatchingTools` (simplestreams.go lines 150-187).
`toolsMap` is built once from the already-accumulated `matchingTools`
and is not updated while the batch is scanned, exactly as in the Go
code; a record is appended when it passes the series filter and the
version filter and no record with its identity key was accumulated
before this call. -/
def appendMatchingTools (isDev : Number → Bool) (source : DataSource)
    (matchingTools tools : List ToolsMetadata) (cons : ToolsConstraint) :
    List ToolsMetadata :=
  tools.foldl (fun acc tm =>
    if tm.Release ∉ cons.Series then acc
    else if ¬ versionMatches isDev cons tm then acc
    else
      match mapLookup (loadMap [] matchingTools) tm.binary with
      | some _ => acc
      | none => acc ++ [setFullPath source tm]) matchingTools

/-- Modelled from the spec: the per-source accumulation loop of
`simplestreams.GetMetadata`, which is outside the verified sources and
is described as "descriptors are accumulated source by source, in
source-priority order", each source contributing one batch of records
through the filter function `appendMatchingTools`. -/
def selectFromSources (isDev : Number → Bool) (cons : ToolsConstraint)
    (batches : List (DataSource × List ToolsMetadata)) : List ToolsMetadata :=
  batches.foldl (fun acc b => appendMatchingTools isDev b.1 acc b.2 cons) []

/-- Go `DefaultBaseURL` (line 36). -/
def DefaultBaseURL : String := "https://juju.canonical.com/tools"

/-- Embeds Go `excludeDefaultSource` (simplestreams.go lines 110-119):
drop every source whose base URL starts with the official tools URL. -/
def excludeDefaultSource (sources : List DataSource) : List DataSource :=
  sources.filter (fun source => !strHasPre "https://juju.canonical.com/tools" (source.url ""))

/-- Embeds Go `Fetch` (simplestreams.go lines 125-146) relative to an
abstract `getMetadata`, the simplestreams lookup driver (outside the
verified sources): `Fetch` strips the default source and hands the rest
to the lookup. -/
def Fetch (getMetadata : List DataSource → ToolsConstraint → Except JujuError (List ToolsMetadata))
    (sources : List DataSource) (cons : ToolsConstraint) :
    Except JujuError (List ToolsMetadata) :=
  getMetadata (excludeDefaultSource sources) cons

/-- Embeds Go `coretools.Tools` as far as `MetadataFromTools` reads it:
a binary version plus URL, size and SHA256. -/
structure Tool where
  version : Binary
  url : String
  size : Int
  sha256 : String
deriving DecidableEq, Repr

/-- Modelled from the spec: the string rendering of a `version.Number`
(package `version`, outside the verified sources), used only to
synthesize the canonical relative path of a descriptor. -/
def Number.str (n : Number) : String :=
  toString n.major ++ "." ++ toString n.minor ++ "." ++ toString n.patch ++
    (if 0 < n.build then "." ++ toString n.build else "")

/-- Embeds Go `MetadataFromTools` (simplestreams.go lines 197-213): one
descriptor per known tool, with a synthesized canonical relative path;
size and SHA256 are carried over as-is (zero/empty means unresolved). -/
def MetadataFromTools (toolsList : List Tool) : List ToolsMetadata :=
  toolsList.map fun t =>
    { Release := t.version.series
      Version := t.version.number
      Arch := t.version.arch
      Size := t.size
      Path := "releases/juju-" ++ t.version.number.str ++ "-" ++ t.version.series ++
        "-" ++ t.version.arch ++ ".tgz"
      FullPath := t.url
      FileType := "tar.gz"
      SHA256 := t.sha256 }

/-- Embeds Go `ResolveMetadata` (simplestreams.go lines 218-233).
`fetchHash` abstracts `fetchToolsHash` (lines 321-330): stream the tool
from storage once, returning its byte count and SHA256 digest, or the
fetch error.  Records are processed in order; the first fetch failure
aborts the whole resolution with that error. -/
def ResolveMetadata (fetchHash : Binary → Except JujuError (Int × String)) :
    List ToolsMetadata → Except JujuError (List ToolsMetadata)
  | [] => .ok []
  | md :: rest =>
    if md.Size = 0 then
      match fetchHash md.binary with
      | .error e => .error e
      | .ok (size, sha) =>
        match ResolveMetadata fetchHash rest with
        | .error e => .error e
        | .ok rest' => .ok ({ md with Size := size, SHA256 := sha } :: rest')
    else
      match ResolveMetadata fetchHash rest with
      | .error e => .error e
      | .ok rest' => .ok (md :: rest')

/-- Go `simplestreams.UnsignedIndex`, the index document path.  The
constant lives outside the verified sources; its exact value is not
load-bearing for any claim. -/
def UnsignedIndex : String := "streams/v1/index.json"

/-- Go `ProductMetadataPath`, the path of the single products (listing)
document.  The constant lives outside the verified sources; its exact
value is not load-bearing for any claim. -/
def ProductMetadataPath : String := "streams/v1/com.ubuntu.juju:released:tools.json"

/-- One write performed against the storage sink. -/
structure PutOp where
  path : String
  data : String
deriving DecidableEq, Repr

/-- Embeds Go `MetadataFile` (simplestreams.go lines 189-192). -/
structure MetadataFile where
  Path : String
  Data : String
deriving DecidableEq, Repr

/-- Embeds Go `WriteMetadata` (simplestreams.go lines 273-290).
`marshal` abstracts `MarshalToolsMetadataJSON` (outside the verified
sources), which renders the index document and the single products
document.  Storage puts are modelled as succeeding; the result is the
list of put operations performed, in order. -/
def WriteMetadata (marshal : List ToolsMetadata → Except JujuError (String × String))
    (metadata : List ToolsMetadata) : Except JujuError (List PutOp) :=
  match marshal metadata with
  | .error e => .error e
  | .ok (index, products) =>
    let metadataInfo : List MetadataFile :=
      [⟨UnsignedIndex, index⟩, ⟨ProductMetadataPath, products⟩]
    .ok (metadataInfo.map fun md => ⟨"tools/" ++ md.Path, md.Data⟩)

/-- The puts of a completed `WriteMetadata`, empty on error. -/
def putsOf : Except JujuError (List PutOp) → List PutOp
  | .ok l => l
  | .error _ => []

/-- Modelled from the spec: the number of product streams present in a
catalog.  A product stream is namespace × platform-version ×
architecture (`productId` renders it as `com.ubuntu.juju:<series
version>:<arch>`, with the series-to-version table outside the verified
sources and injective), embedded as the number of distinct
(release, arch) pairs. -/
def numProductStreams (metadata : List ToolsMetadata) : Nat :=
  ((metadata.map fun tm => (tm.Release, tm.Arch)).dedup).length

/-- Embeds Go `ReadMetadata` (simplestreams.go lines 258-270).
`fetchResult` abstracts the `Fetch` call against the storage-backed
data source (the driver is outside the verified sources): a NotFound
error is converted into an empty catalog, every other error is
propagated unchanged. -/
def ReadMetadata (fetchResult : Except JujuError (List ToolsMetadata)) :
    Except JujuError (List ToolsMetadata) :=
  match fetchResult with
  | .ok metadata => .ok metadata
  | .error e => if isNotFoundError e then .ok [] else .error e

/-- Embeds Go `MergeAndWriteMetadata` (simplestreams.go lines 304-317),
the publish cycle: Read → MetadataFromTools → Merge → optional Resolve
→ Write.  The result pairs the storage puts performed with the error,
if any; every error path performs no put (marshalling precedes the
first put, and puts are modelled as succeeding). -/
def MergeAndWriteMetadata (readResult : Except JujuError (List ToolsMetadata))
    (marshal : List ToolsMetadata → Except JujuError (String × String))
    (fetchHash : Binary → Except JujuError (Int × String))
    (targetTools : List Tool) (resolve : Bool) :
    List PutOp × Option JujuError :=
  match ReadMetadata readResult with
  | .error e => ([], some e)
  | .ok existing =>
    let metadata := MergeMetadata (MetadataFromTools targetTools) existing
    match (if resolve then ResolveMetadata fetchHash metadata else .ok metadata) with
    | .error e => ([], some e)
    | .ok resolved =>
      match WriteMetadata marshal resolved with
      | .error e => ([], some e)
      | .ok puts => (puts, none)

/-- Embeds `upgrader.UpgradeReadyError` as its test exercises it: the
terminal upgrade outcome {agent identity, old version, new version,
data directory}, carrying the binary versions of the old and new
tools. -/
structure UpgradeReadyError where
  AgentName : String
  OldToolsVersion : Binary
  NewToolsVersion : Binary
  DataDir : String
deriving DecidableEq, Repr

/-- Modelled from the spec: the retry loop of the upgrade coordinator
(spec §4.3 steps 1-7); the `worker/upgrader` code is not under the
verified sources, only its test is.  Each element of `attempts` is one
Deciding → Downloading round: the desired version read from the signal
at that round, paired with whether the fetch succeeds.  A transient
fetch failure does not terminate the run: the coordinator blocks in
RetryWait and then re-reads the signal (the next element).  A
successful fetch installs and emits the terminal `UpgradeReadyError`,
whose old version is the originally installed one.  An exhausted list
means the coordinator is still running: no outcome. -/
def coordinatorRun (agentName dataDir : String) (installed : Binary) :
    List (Binary × Bool) → Option UpgradeReadyError
  | [] => none
  | (desired, fetchOk) :: rest =>
    if fetchOk then some ⟨agentName, installed, desired, dataDir⟩
    else coordinatorRun agentName dataDir installed rest

/-- Association-list write for the per-agent current-version pointers. -/
def pointerSet : List (String × Binary) → String → Binary → List (String × Binary)
  | [], a, v => [(a, v)]
  | (a', v') :: rest, a, v =>
    if a' = a then (a, v) :: rest else (a', v') :: pointerSet rest a v

/-- Association-list read for the per-agent current-version pointers. -/
def pointerGet : List (String × Binary) → String → Option Binary
  | [], _ => none
  | (a', v') :: rest, a => if a' = a then some v' else pointerGet rest a

/-- The installed-tools layout of one data directory (spec §6): the
staged (downloaded but not yet installed) bundles, the per-version
directories present, and the per-agent current-version pointer. -/
structure ToolsDirState where
  staged : List Binary
  installed : List Binary
  current : List (String × Binary)
deriving DecidableEq, Repr

/-- Modelled from the spec: `UpgradeReadyError.ChangeAgentTools`, the
atomic-install step (spec §4.3 step 6), for the upgrader code missing
from the verified sources.  When the new version's per-version
directory already exists — e.g. after a partial or complete prior
attempt — nothing is re-copied; otherwise the staged bundle is moved
into it, and it is an error only when there is neither a staged bundle
nor an existing directory.  Finally the agent's current-version pointer
is re-pointed at the new version. -/
def ChangeAgentTools (st : ToolsDirState) (e : UpgradeReadyError) :
    ToolsDirState × Option JujuError :=
  if e.NewToolsVersion ∈ st.installed then
    ({ st with current := pointerSet st.current e.AgentName e.NewToolsVersion }, none)
  else if e.NewToolsVersion ∈ st.staged then
    ({ staged := st.staged.erase e.NewToolsVersion,
       installed := e.NewToolsVersion :: st.installed,
       current := pointerSet st.current e.AgentName e.NewToolsVersion }, none)
  else (st, some (.notFound "tools not present"))

/-! ### Concrete sample data for witnesses and counterexamples -/

/-- Sample version 1.0.0. -/
def sampleNumber1 : Number := ⟨1, 0, 0, 0⟩

/-- Sample version 2.0.0. -/
def sampleNumber2 : Number := ⟨2, 0, 0, 0⟩

/-- Sample identity key for version 1.0.0 on precise/amd64. -/
def sampleKey1 : Binary := ⟨sampleNumber1, "precise", "amd64"⟩

/-- A resolved new-catalog record with key `sampleKey1`. -/
def mdNewResolved : ToolsMetadata :=
  ⟨"precise", sampleNumber1, "amd64", 50, "new/path", "", "tar.gz", "newhash"⟩

/-- An unresolved old-catalog record with key `sampleKey1`. -/
def mdOldUnresolved : ToolsMetadata :=
  ⟨"precise", sampleNumber1, "amd64", 0, "old/path", "", "tar.gz", ""⟩

/-- A resolved old-catalog record with a second key. -/
def mdOldResolved2 : ToolsMetadata :=
  ⟨"precise", sampleNumber2, "amd64", 100, "old/path2", "", "tar.gz", "oldhash"⟩

/-- Two records sharing one identity key but differing elsewhere. -/
def mdDupA : ToolsMetadata :=
  ⟨"precise", sampleNumber1, "amd64", 10, "path-a", "", "tar.gz", "ha"⟩

/-- See `mdDupA`. -/
def mdDupB : ToolsMetadata :=
  ⟨"precise", sampleNumber1, "amd64", 20, "path-b", "", "tar.gz", "hb"⟩

/-- A sample non-official data source. -/
def sampleSource : DataSource := ⟨fun p => "http://example.com/tools/" ++ p⟩

/-- A data source rooted at the official tools URL. -/
def officialSource : DataSource := ⟨fun p => "https://juju.canonical.com/tools/" ++ p⟩

/-- An exact-version constraint for `sampleNumber1` on precise/amd64. -/
def exactCons1 : ToolsConstraint :=
  NewVersionedToolsConstraint sampleNumber1 ["precise"] ["amd64"]

/-- A family constraint: major 1, minor 0, released only. -/
def familyCons : ToolsConstraint :=
  NewGeneralToolsConstraint 1 0 true ["precise"] ["amd64"]

/-- A marshaller that always succeeds with fixed documents. -/
def marshalConst : List ToolsMetadata → Except JujuError (String × String) :=
  fun _ => .ok ("index-doc", "products-doc")

/-- Two resolved records in distinct product streams (same release,
different architectures). -/
def mdStreamAmd : ToolsMetadata :=
  ⟨"precise", sampleNumber1, "amd64", 10, "p1", "", "tar.gz", "h1"⟩

/-- See `mdStreamAmd`. -/
def mdStreamI386 : ToolsMetadata :=
  ⟨"precise", sampleNumber1, "i386", 10, "p2", "", "tar.gz", "h2"⟩

/-- Sample binary versions for the coordinator scenarios. -/
def binary543 : Binary := ⟨⟨5, 4, 3, 0⟩, "precise", "amd64"⟩

/-- See `binary543`. -/
def binary545 : Binary := ⟨⟨5, 4, 5, 0⟩, "precise", "amd64"⟩

/-- See `binary543`. -/
def binary546 : Binary := ⟨⟨5, 4, 6, 0⟩, "precise", "amd64"⟩

/-- A sample data directory state: 5.4.5 staged, 5.4.3 installed and
current for agent machine-0. -/
def sampleToolsDir : ToolsDirState :=
  ⟨[binary545], [binary543], [("machine-0", binary543)]⟩

/-- A sample terminal upgrade outcome: machine-0 moves from 5.4.3 to
5.4.5. -/
def sampleUpgradeReady : UpgradeReadyError :=
  ⟨"machine-0", binary543, binary545, "/var/lib/juju"⟩

/-! ### Association-list map lemmas -/

theorem mapLookup_mapInsert_self (m : List (Binary × ToolsMetadata)) (k : Binary)
    (v : ToolsMetadata) : mapLookup (mapInsert m k v) k = some v := by
  induction m with
  | nil => simp [mapInsert, mapLookup]
  | cons p rest ih =>
    obtain ⟨k', v'⟩ := p
    by_cases h : k' = k
    · simp [mapInsert, mapLookup, h]
    · simp [mapInsert, mapLookup, h, ih]

theorem mapLookup_mapInsert_ne (m : List (Binary × ToolsMetadata)) (k k' : Binary)
    (v : ToolsMetadata) (h : k' ≠ k) :
    mapLookup (mapInsert m k v) k' = mapLookup m k' := by
  induction m with
  | nil => simp [mapInsert, mapLookup, Ne.symm h]
  | cons p rest ih =>
    obtain ⟨k₀, v₀⟩ := p
    by_cases h₀ : k₀ = k
    · subst h₀
      simp [mapInsert, mapLookup, Ne.symm h]
    · simp only [mapInsert, if_neg h₀, mapLookup]
      by_cases h₁ : k₀ = k'
      · simp [h₁]
      · simp [h₁, ih]

theorem keyConsistent_mapInsert (m : List (Binary × ToolsMetadata))
    (tm : ToolsMetadata) (h : keyConsistent m) :
    keyConsistent (mapInsert m tm.binary tm) := by
  induction m with
  | nil => intro p hp; simp [mapInsert] at hp; simp [hp]
  | cons q rest ih =>
    obtain ⟨k₀, v₀⟩ := q
    have hrest : keyConsistent rest := fun p hp => h p (List.mem_cons_of_mem _ hp)
    by_cases h₀ : k₀ = tm.binary
    · intro p hp
      simp only [mapInsert, if_pos h₀] at hp
      rcases List.mem_cons.mp hp with h₁ | h₁
      · simp [h₁]
      · exact hrest p h₁
    · intro p hp
      simp only [mapInsert, if_neg h₀] at hp
      rcases List.mem_cons.mp hp with h₁ | h₁
      · subst h₁; exact h _ (List.mem_cons_self _ _)
      · exact ih hrest p h₁

theorem findByKey_eq_none (l : List ToolsMetadata) (k : Binary)
    (h : k ∉ l.map ToolsMetadata.binary) : findByKey l k = none := by
  rw [findByKey, List.find?_eq_none]
  intro tm hmem
  simp only [decide_eq_true_eq]
  intro he
  exact h (he ▸ List.mem_map_of_mem ToolsMetadata.binary hmem)

/-! ### The two phases of `MergeMetadata` -/

theorem mapLookup_loadMap (l : List ToolsMetadata)
    (init : List (Binary × ToolsMetadata)) (k : Binary)
    (h : (l.map ToolsMetadata.binary).Nodup) :
    mapLookup (loadMap init l) k =
      match findByKey l k with
      | some n => some n
      | none => mapLookup init k := by
  induction l generalizing init with
  | nil => simp [loadMap, findByKey]
  | cons x xs ih =>
    have hxs : (xs.map ToolsMetadata.binary).Nodup := (List.nodup_cons.mp h).2
    have hload : loadMap init (x :: xs) = loadMap (mapInsert init x.binary x) xs := rfl
    by_cases hk : x.binary = k
    · have hnotin : k ∉ xs.map ToolsMetadata.binary := hk ▸ (List.nodup_cons.mp h).1
      have hfind : findByKey xs k = none := findByKey_eq_none xs k hnotin
      have hfx : findByKey (x :: xs) k = some x := by
        simp [findByKey, List.find?_cons, hk]
      rw [hload, ih _ hxs, hfind, hfx, hk, mapLookup_mapInsert_self]
    · have hfx : findByKey (x :: xs) k = findByKey xs k := by
        simp [findByKey, List.find?_cons, hk]
      rw [hload, ih _ hxs, hfx,
        mapLookup_mapInsert_ne init x.binary k x (fun he => hk he.symm)]

theorem mapLookup_mergeOldStep_ne (m : List (Binary × ToolsMetadata))
    (tm : ToolsMetadata) (k : Binary) (h : tm.binary ≠ k) :
    mapLookup (mergeOldStep m tm) k = mapLookup m k := by
  unfold mergeOldStep
  cases mapLookup m tm.binary with
  | none => exact mapLookup_mapInsert_ne m tm.binary k tm (fun he => h he.symm)
  | some existing =>
    by_cases hs : existing.Size = 0
    · simp only [hs, if_pos rfl]
      exact mapLookup_mapInsert_ne m tm.binary k tm (fun he => h he.symm)
    · simp [hs]

theorem mapLookup_foldl_mergeOldStep (old : List ToolsMetadata)
    (m : List (Binary × ToolsMetadata)) (k : Binary)
    (h : (old.map ToolsMetadata.binary).Nodup) :
    mapLookup (old.foldl mergeOldStep m) k =
      match findByKey old k with
      | none => mapLookup m k
      | some o =>
        match mapLookup m k with
        | none => some o
        | some e => if e.Size = 0 then some o else some e := by
  induction old generalizing m with
  | nil => simp [findByKey]
  | cons x xs ih =>
    have hxs : (xs.map ToolsMetadata.binary).Nodup := (List.nodup_cons.mp h).2
    have hfold : (x :: xs).foldl mergeOldStep m = xs.foldl mergeOldStep (mergeOldStep m x) := rfl
    by_cases hk : x.binary = k
    · have hnotin : k ∉ xs.map ToolsMetadata.binary := hk ▸ (List.nodup_cons.mp h).1
      have hfind : findByKey xs k = none := findByKey_eq_none xs k hnotin
      have hfx : findByKey (x :: xs) k = some x := by
        simp [findByKey, List.find?_cons, hk]
      rw [hfold, ih _ hxs, hfind, hfx]
      unfold mergeOldStep
      rw [hk]
      cases hm : mapLookup m k with
      | none => simp [hk, mapLookup_mapInsert_self]
      | some existing =>
        by_cases hs : existing.Size = 0
        · simp [hs, hk, mapLookup_mapInsert_self]
        · simp [hs, hm]
    · have hfx : findByKey (x :: xs) k = findByKey xs k := by
        simp [findByKey, List.find?_cons, hk]
      rw [hfold, ih _ hxs, hfx, mapLookup_mergeOldStep_ne m x k hk]

theorem keyConsistent_loadMap (l : List ToolsMetadata)
    (init : List (Binary × ToolsMetadata)) (h : keyConsistent init) :
    keyConsistent (loadMap init l) := by
  induction l generalizing init with
  | nil => exact h
  | cons x xs ih => exact ih _ (keyConsistent_mapInsert init x h)

theorem keyConsistent_mergeOldStep (m : List (Binary × ToolsMetadata))
    (tm : ToolsMetadata) (h : keyConsistent m) :
    keyConsistent (mergeOldStep m tm) := by
  unfold mergeOldStep
  cases mapLookup m tm.binary with
  | none => exact keyConsistent_mapInsert m tm h
  | some existing =>
    by_cases hs : existing.Size = 0
    · simpa [hs] using keyConsistent_mapInsert m tm h
    · simpa [hs] using h

theorem keyConsistent_foldl_mergeOldStep (old : List ToolsMetadata)
    (m : List (Binary × ToolsMetadata)) (h : keyConsistent m) :
    keyConsistent (old.foldl mergeOldStep m) := by
  induction old generalizing m with
  | nil => exact h
  | cons x xs ih => exact ih _ (keyConsistent_mergeOldStep m x h)

theorem findByKey_map_snd (m : List (Binary × ToolsMetadata)) (k : Binary)
    (h : keyConsistent m) :
    findByKey (m.map Prod.snd) k = mapLookup m k := by
  induction m with
  | nil => simp [findByKey, mapLookup]
  | cons p rest ih =>
    obtain ⟨k₀, v₀⟩ := p
    have hk₀ : v₀.binary = k₀ := h _ (List.mem_cons_self _ _)
    have hrest : keyConsistent rest := fun q hq => h q (List.mem_cons_of_mem _ hq)
    by_cases he : k₀ = k
    · simp [findByKey, mapLookup, List.find?_cons, hk₀, he]
    · simp only [List.map_cons, findByKey, List.find?_cons, hk₀, he, decide_eq_false,
        mapLookup, if_neg he]
      exact ih hrest

/-- C1: `MergeMetadata` yields, for each identity key `K`: the new
entry when it is resolved (`Size ≠ 0`); otherwise the old entry with
key `K` when one exists; otherwise the unresolved new entry.  When no
new entry has key `K`, the old entry (if any) is kept.  In particular
an unresolved old entry never replaces a resolved new entry, and a
resolved old entry replaces an unresolved new entry.  Stated for lists
whose identity keys are duplicate-free, so that "the" new/old entry
with a key is well defined. -/
theorem mergeMetadata_precedence (newMetadata oldMetadata : List ToolsMetadata)
    (K : Binary)
    (hnew : (newMetadata.map ToolsMetadata.binary).Nodup)
    (hold : (oldMetadata.map ToolsMetadata.binary).Nodup) :
    findByKey (MergeMetadata newMetadata oldMetadata) K =
      match findByKey newMetadata K with
      | some n =>
        if n.Size ≠ 0 then some n
        else
          match findByKey oldMetadata K with
          | some o => some o
          | none => some n
      | none => findByKey oldMetadata K := by
  unfold MergeMetadata
  rw [findByKey_map_snd _ _
    (keyConsistent_foldl_mergeOldStep _ _
      (keyConsistent_loadMap _ _ (fun p hp => absurd hp (List.not_mem_nil p))))]
  rw [mapLookup_foldl_mergeOldStep _ _ _ hold, mapLookup_loadMap _ _ _ hnew]
  cases hn : findByKey newMetadata K with
  | none =>
    cases ho : findByKey oldMetadata K with
    | none => simp [mapLookup]
    | some o => simp [mapLookup]
  | some n =>
    cases ho : findByKey oldMetadata K with
    | none =>
      by_cases hs : n.Size = 0 <;> simp [hs]
    | some o =>
      by_cases hs : n.Size = 0 <;> simp [hs]

/-- Witness for C1, at the spec's Scenario C: the resolved new entry
survives an unresolved old entry with the same key. -/
theorem mergeMetadata_precedence_witness :
    (([mdNewResolved].map ToolsMetadata.binary).Nodup) ∧
    (([mdOldUnresolved, mdOldResolved2].map ToolsMetadata.binary).Nodup) ∧
    findByKey (MergeMetadata [mdNewResolved] [mdOldUnresolved, mdOldResolved2]) sampleKey1 =
      some mdNewResolved := by
  refine ⟨by decide, by decide, ?_⟩
  have h := mergeMetadata_precedence [mdNewResolved] [mdOldUnresolved, mdOldResolved2]
    sampleKey1 (by decide) (by decide)
  rw [h]
  decide

/-- C5: `ReadMetadata` turns a NotFound failure of the underlying fetch
into an empty catalog with no error, passes a successful fetch through,
and propagates every other fetch error unchanged. -/
theorem readMetadata_notFound_empty :
    (∀ msg, ReadMetadata (.error (.notFound msg)) = .ok []) ∧
    (∀ e : JujuError, isNotFoundError e = false → ReadMetadata (.error e) = .error e) ∧
    (∀ metadata, ReadMetadata (.ok metadata) = .ok metadata) := by
  refine ⟨fun msg => rfl, fun e he => ?_, fun metadata => rfl⟩
  simp [ReadMetadata, he]

/-- Witness for C5 at concrete errors. -/
theorem readMetadata_notFound_empty_witness :
    ReadMetadata (.error (.notFound "index not found")) = .ok [] ∧
    isNotFoundError (.other "io failure") = false ∧
    ReadMetadata (.error (.other "io failure")) = .error (.other "io failure") :=
  ⟨readMetadata_notFound_empty.1 "index not found", rfl,
   readMetadata_notFound_empty.2.1 (.other "io failure") rfl⟩

theorem resolveMetadata_error_of_fetch_failure
    (fetchHash : Binary → Except JujuError (Int × String)) (l : List ToolsMetadata)
    (h : ∃ md ∈ l, md.Size = 0 ∧ ∃ e, fetchHash md.binary = .error e) :
    ∃ e', ResolveMetadata fetchHash l = .error e' := by
  induction l with
  | nil =>
    obtain ⟨md, hmem, _⟩ := h
    exact absurd hmem (List.not_mem_nil md)
  | cons md₀ rest ih =>
    by_cases hs : md₀.Size = 0
    · cases hf : fetchHash md₀.binary with
      | error e => exact ⟨e, by simp [ResolveMetadata, hs, hf]⟩
      | ok pr =>
        obtain ⟨md, hmem, hsz, e, he⟩ := h
        have hmem' : md ∈ rest := by
          rcases List.mem_cons.mp hmem with rfl | hr
          · rw [hf] at he; exact absurd he (by simp)
          · exact hr
        obtain ⟨e', he'⟩ := ih ⟨md, hmem', hsz, e, he⟩
        obtain ⟨size, sha⟩ := pr
        exact ⟨e', by simp [ResolveMetadata, hs, hf, he']⟩
    · obtain ⟨md, hmem, hsz, e, he⟩ := h
      have hmem' : md ∈ rest := by
        rcases List.mem_cons.mp hmem with rfl | hr
        · exact absurd hsz hs
        · exact hr
      obtain ⟨e', he'⟩ := ih ⟨md, hmem', hsz, e, he⟩
      exact ⟨e', by simp [ResolveMetadata, hs, he']⟩

/-- C6: when any fetch performed by the resolution step fails, the
whole resolution aborts with that error, the publish cycle propagates
it, and nothing at all is written to the store. -/
theorem publishCycle_aborts_on_fetch_failure
    (readResult : Except JujuError (List ToolsMetadata))
    (marshal : List ToolsMetadata → Except JujuError (String × String))
    (fetchHash : Binary → Except JujuError (Int × String))
    (targetTools : List Tool) (existing : List ToolsMetadata)
    (hread : ReadMetadata readResult = .ok existing)
    (hfail : ∃ md ∈ MergeMetadata (MetadataFromTools targetTools) existing,
      md.Size = 0 ∧ ∃ e, fetchHash md.binary = .error e) :
    ∃ e', ResolveMetadata fetchHash (MergeMetadata (MetadataFromTools targetTools) existing)
        = .error e' ∧
      MergeAndWriteMetadata readResult marshal fetchHash targetTools true = ([], some e') := by
  obtain ⟨e', he'⟩ := resolveMetadata_error_of_fetch_failure fetchHash _ hfail
  refine ⟨e', he', ?_⟩
  unfold MergeAndWriteMetadata
  rw [hread]
  simp [he']

/-- Witness for C6: one unresolved record and an always-failing fetch. -/
theorem publishCycle_aborts_on_fetch_failure_witness :
    ∃ e', ResolveMetadata (fun _ => .error (.other "network failure"))
        (MergeMetadata (MetadataFromTools []) [mdOldUnresolved]) = .error e' ∧
      MergeAndWriteMetadata (.ok [mdOldUnresolved]) marshalConst
        (fun _ => .error (.other "network failure")) [] true = ([], some e') :=
  publishCycle_aborts_on_fetch_failure (.ok [mdOldUnresolved]) marshalConst
    (fun _ => .error (.other "network failure")) [] [mdOldUnresolved] rfl
    ⟨mdOldUnresolved, by decide, rfl, ⟨.other "network failure", rfl⟩⟩

/-- Counterexample to C7 as stated: a catalog with two product streams
(amd64 and i386) is persisted as 2 documents, not the 1 + 2 = 3 the
claim calls for — the code always writes one index document plus one
products document holding all streams. -/
theorem writeMetadata_per_stream_counterexample :
    (putsOf (WriteMetadata marshalConst [mdStreamAmd, mdStreamI386])).length ≠
      1 + numProductStreams [mdStreamAmd, mdStreamI386] := by decide

/-- C7 amended: for every catalog whose marshalling succeeds, `Persist`
writes exactly two documents — one index document and one products
(listing) document containing every product stream — regardless of how
many product streams the catalog holds. -/
theorem writeMetadata_two_documents
    (marshal : List ToolsMetadata → Except JujuError (String × String))
    (metadata : List ToolsMetadata) (index products : String)
    (h : marshal metadata = .ok (index, products)) :
    WriteMetadata marshal metadata =
      .ok [⟨"tools/" ++ UnsignedIndex, index⟩,
           ⟨"tools/" ++ ProductMetadataPath, products⟩] := by
  simp [WriteMetadata, h]

/-- Witness for C7's amended claim at a two-stream catalog. -/
theorem writeMetadata_two_documents_witness :
    marshalConst [mdStreamAmd, mdStreamI386] = .ok ("index-doc", "products-doc") ∧
    WriteMetadata marshalConst [mdStreamAmd, mdStreamI386] =
      .ok [⟨"tools/" ++ UnsignedIndex, "index-doc"⟩,
           ⟨"tools/" ++ ProductMetadataPath, "products-doc"⟩] :=
  ⟨rfl, writeMetadata_two_documents marshalConst [mdStreamAmd, mdStreamI386]
    "index-doc" "products-doc" rfl⟩

theorem coordinatorRun_replicate_failures (agentName dataDir : String)
    (installed v : Binary) (n : Nat) (l : List (Binary × Bool)) :
    coordinatorRun agentName dataDir installed (List.replicate n (v, false) ++ l) =
      coordinatorRun agentName dataDir installed l := by
  induction n with
  | zero => rfl
  | succ k ih => simpa [List.replicate_succ, coordinatorRun] using ih

/-- C8: under transient fetch failures the coordinator emits no outcome
and keeps retrying; when the desired version changes from `v` to `v'`
before a later attempt and that fetch succeeds, the outcome is for `v'`
with the originally installed version as old version, and no outcome is
ever emitted for the abandoned `v`. -/
theorem coordinator_retry_then_changed (agentName dataDir : String)
    (installed v v' : Binary) (n : Nat) (hne : v ≠ v') :
    coordinatorRun agentName dataDir installed (List.replicate n (v, false)) = none ∧
    coordinatorRun agentName dataDir installed
        (List.replicate n (v, false) ++ [(v', true)]) =
      some ⟨agentName, installed, v', dataDir⟩ ∧
    ∀ o, coordinatorRun agentName dataDir installed
        (List.replicate n (v, false) ++ [(v', true)]) = some o →
      o.NewToolsVersion ≠ v := by
  refine ⟨?_, ?_, ?_⟩
  · have h := coordinatorRun_replicate_failures agentName dataDir installed v n []
    simpa [coordinatorRun] using h
  · rw [coordinatorRun_replicate_failures]
    rfl
  · intro o ho
    rw [coordinatorRun_replicate_failures] at ho
    have : (⟨agentName, installed, v', dataDir⟩ : UpgradeReadyError) = o :=
      Option.some.inj ho
    rw [← this]
    simpa using Ne.symm hne

/-- Witness for C8: three failed attempts at 5.4.5 and a successful one
at 5.4.6 yield the outcome {old 5.4.3, new 5.4.6} only. -/
theorem coordinator_retry_then_changed_witness :
    coordinatorRun "machine-0" "/var/lib/juju" binary543
        (List.replicate 3 (binary545, false)) = none ∧
    coordinatorRun "machine-0" "/var/lib/juju" binary543
        (List.replicate 3 (binary545, false) ++ [(binary546, true)]) =
      some ⟨"machine-0", binary543, binary546, "/var/lib/juju"⟩ := by
  have h := coordinator_retry_then_changed "machine-0" "/var/lib/juju" binary543
    binary545 binary546 3 (by decide)
  exact ⟨h.1, h.2.1⟩

theorem pointerGet_pointerSet_self (l : List (String × Binary)) (a : String) (v : Binary) :
    pointerGet (pointerSet l a v) a = some v := by
  induction l with
  | nil => simp [pointerSet, pointerGet]
  | cons p rest ih =>
    obtain ⟨a', v'⟩ := p
    by_cases h : a' = a
    · simp [pointerSet, pointerGet, h]
    · simp [pointerSet, pointerGet, h, ih]

/-- C9: the atomic-install step is idempotent — with the new version's
bundle staged or its directory already present, the first invocation
succeeds, and invoking it again with identical arguments also returns
no error and leaves the current-version pointer at the new version. -/
theorem changeAgentTools_idempotent (st : ToolsDirState) (e : UpgradeReadyError)
    (h : e.NewToolsVersion ∈ st.staged ∨ e.NewToolsVersion ∈ st.installed) :
    (ChangeAgentTools st e).2 = none ∧
    (ChangeAgentTools (ChangeAgentTools st e).1 e).2 = none ∧
    pointerGet (ChangeAgentTools (ChangeAgentTools st e).1 e).1.current e.AgentName =
      some e.NewToolsVersion := by
  by_cases hin : e.NewToolsVersion ∈ st.installed
  · simp [ChangeAgentTools, hin, pointerGet_pointerSet_self]
  · have hst : e.NewToolsVersion ∈ st.staged := by
      rcases h with hs | hi
      · exact hs
      · exact absurd hi hin
    simp [ChangeAgentTools, hin, hst, pointerGet_pointerSet_self]

/-- Witness for C9 at a concrete data directory state. -/
theorem changeAgentTools_idempotent_witness :
    (sampleUpgradeReady.NewToolsVersion ∈ sampleToolsDir.staged ∨
      sampleUpgradeReady.NewToolsVersion ∈ sampleToolsDir.installed) ∧
    (ChangeAgentTools (ChangeAgentTools sampleToolsDir sampleUpgradeReady).1
        sampleUpgradeReady).2 = none ∧
    pointerGet (ChangeAgentTools (ChangeAgentTools sampleToolsDir sampleUpgradeReady).1
        sampleUpgradeReady).1.current sampleUpgradeReady.AgentName =
      some sampleUpgradeReady.NewToolsVersion := by
  have h := changeAgentTools_idempotent sampleToolsDir sampleUpgradeReady (by decide)
  exact ⟨by decide, h.2.1, h.2.2⟩

/-- C10: `Fetch` performs the lookup on `excludeDefaultSource sources`;
no surviving source's base URL starts with the official tools URL, and
when every supplied source starts with it the lookup runs with no
sources at all. -/
theorem fetch_excludes_default_source
    (getMetadata : List DataSource → ToolsConstraint → Except JujuError (List ToolsMetadata))
    (sources : List DataSource) (cons : ToolsConstraint) :
    Fetch getMetadata sources cons = getMetadata (excludeDefaultSource sources) cons ∧
    (∀ s ∈ excludeDefaultSource sources,
      strHasPre "https://juju.canonical.com/tools" (s.url "") = false) ∧
    ((∀ s ∈ sources, strHasPre "https://juju.canonical.com/tools" (s.url "") = true) →
      excludeDefaultSource sources = []) := by
  refine ⟨rfl, ?_, ?_⟩
  · intro s hs
    have hp := List.of_mem_filter hs
    simpa using hp
  · intro hall
    apply List.filter_eq_nil_iff.mpr
    intro s hs
    simp [hall s hs]

/-- Witness for C10: the official source is removed (leaving no
sources), a non-official source is kept. -/
theorem fetch_excludes_default_source_witness :
    excludeDefaultSource [officialSource] = [] ∧
    strHasPre "https://juju.canonical.com/tools" (sampleSource.url "") = false ∧
    Fetch (fun _ _ => .ok []) [officialSource] exactCons1 =
      (fun _ _ => (.ok [] : Except JujuError (List ToolsMetadata)))
        (excludeDefaultSource [officialSource]) exactCons1 := by
  have h := fetch_excludes_default_source (fun _ _ => .ok []) [officialSource] exactCons1
  refine ⟨h.2.2 ?_, ?_, h.1⟩
  · intro s hs
    rcases List.mem_singleton.mp hs with rfl
    decide
  · have h2 := fetch_excludes_default_source (fun _ _ => .ok []) [sampleSource] exactCons1
    apply h2.2.1 sampleSource
    rw [show excludeDefaultSource [sampleSource] = [sampleSource] from rfl]
    exact List.mem_singleton.mpr rfl

/-! ### The constraint matcher -/

theorem foldl_append_filter {α β : Type} (p : α → Bool) (f : α → β)
    (l : List α) (acc : List β) :
    l.foldl (fun a x => if p x then a ++ [f x] else a) acc =
      acc ++ (l.filter p).map f := by
  induction l generalizing acc with
  | nil => simp
  | cons x xs ih =>
    by_cases h : p x
    · simp [h, ih, List.filter_cons]
    · simp [h, ih, List.filter_cons]

/-- `appendMatchingTools` appends to the accumulated list exactly the
batch records that pass the series filter, the version filter, and the
freshness check against the records accumulated before the call, each
with its resolved location recomputed from the source. -/
theorem appendMatchingTools_eq (isDev : Number → Bool) (source : DataSource)
    (matchingTools tools : List ToolsMetadata) (cons : ToolsConstraint) :
    appendMatchingTools isDev source matchingTools tools cons =
      matchingTools ++ (tools.filter (fun tm =>
        decide (tm.Release ∈ cons.Series) && versionMatches isDev cons tm &&
        (mapLookup (loadMap [] matchingTools) tm.binary).isNone)).map
        (setFullPath source) := by
  unfold appendMatchingTools
  have hstep : (fun (acc : List ToolsMetadata) tm =>
      if tm.Release ∉ cons.Series then acc
      else if ¬ versionMatches isDev cons tm then acc
      else
        match mapLookup (loadMap [] matchingTools) tm.binary with
        | some _ => acc
        | none => acc ++ [setFullPath source tm]) =
      (fun acc tm =>
        if (decide (tm.Release ∈ cons.Series) && versionMatches isDev cons tm &&
            (mapLookup (loadMap [] matchingTools) tm.binary).isNone)
        then acc ++ [setFullPath source tm] else acc) := by
    funext acc tm
    by_cases h1 : tm.Release ∈ cons.Series
    · by_cases h2 : versionMatches isDev cons tm = true
      · cases hm : mapLookup (loadMap [] matchingTools) tm.binary <;> simp [h1, h2, hm]
      · simp [h1, h2]
    · simp [h1]
  rw [hstep, foldl_append_filter]

theorem versionMatches_exact (isDev : Number → Bool) (cons : ToolsConstraint)
    (tm : ToolsMetadata) (h : cons.Version ≠ Number.zero) :
    versionMatches isDev cons tm = decide (cons.Version = tm.Version) := by
  simp [versionMatches, h]

theorem versionMatches_family (isDev : Number → Bool) (cons : ToolsConstraint)
    (tm : ToolsMetadata) (h : cons.Version = Number.zero) :
    versionMatches isDev cons tm =
      (decide ¬(cons.Released = true ∧ isDev tm.Version = true) &&
       decide (cons.MajorVersion < 0 ∨ cons.MajorVersion = tm.Version.major) &&
       decide (cons.MinorVersion < 0 ∨ cons.MinorVersion = tm.Version.minor)) := by
  by_cases h1 : cons.Released = true ∧ isDev tm.Version = true
  · simp [versionMatches, h, h1]
  · by_cases h2 : 0 ≤ cons.MajorVersion ∧ cons.MajorVersion ≠ tm.Version.major
    · have h2' : ¬(cons.MajorVersion < 0 ∨ cons.MajorVersion = tm.Version.major) := by
        rintro (hlt | heq)
        · have := h2.1; omega
        · exact h2.2 heq
      simp [versionMatches, h, h1, h2, h2']
    · by_cases h3 : 0 ≤ cons.MinorVersion ∧ cons.MinorVersion ≠ tm.Version.minor
      · have h3' : ¬(cons.MinorVersion < 0 ∨ cons.MinorVersion = tm.Version.minor) := by
          rintro (hlt | heq)
          · have := h3.1; omega
          · exact h3.2 heq
        simp [versionMatches, h, h1, h2, h3, h3']
      · have h2' : cons.MajorVersion < 0 ∨ cons.MajorVersion = tm.Version.major := by
          by_cases hle : 0 ≤ cons.MajorVersion
          · right
            by_contra hne
            exact h2 ⟨hle, hne⟩
          · left; omega
        have h3' : cons.MinorVersion < 0 ∨ cons.MinorVersion = tm.Version.minor := by
          by_cases hle : 0 ≤ cons.MinorVersion
          · right
            by_contra hne
            exact h3 ⟨hle, hne⟩
          · left; omega
        simp [versionMatches, h, h1, h2, h3, h2', h3']

/-- C2: with an exact-version constraint the matcher keeps, from a
batch, exactly the records whose version equals the target and whose
series lies in the requested set, each with its resolved location
recomputed; the right-hand side mentions neither `MajorVersion`,
`MinorVersion`, `Released`, nor the development-build predicate, so
those have no effect on the result. -/
theorem select_exact_version (isDev : Number → Bool) (source : DataSource)
    (tools : List ToolsMetadata) (cons : ToolsConstraint)
    (h : cons.Version ≠ Number.zero) :
    appendMatchingTools isDev source [] tools cons =
      (tools.filter (fun tm =>
        decide (tm.Release ∈ cons.Series) && decide (cons.Version = tm.Version))).map
        (setFullPath source) := by
  rw [appendMatchingTools_eq, List.nil_append]
  have hcongr : ∀ tm ∈ tools,
      (decide (tm.Release ∈ cons.Series) && versionMatches isDev cons tm &&
        (mapLookup (loadMap [] ([] : List ToolsMetadata)) tm.binary).isNone) =
      (decide (tm.Release ∈ cons.Series) && decide (cons.Version = tm.Version)) := by
    intro tm _
    rw [versionMatches_exact isDev cons tm h]
    simp [loadMap, mapLookup]
  rw [List.filter_congr hcongr]

/-- Witness for C2: the family fields of `exactCons1` are (0, 0, false)
and the development predicate is irrelevant. -/
theorem select_exact_version_witness :
    exactCons1.Version ≠ Number.zero ∧
    appendMatchingTools (fun _ => false) sampleSource [] [mdDupA, mdOldResolved2]
        exactCons1 =
      (([mdDupA, mdOldResolved2]).filter (fun tm =>
        decide (tm.Release ∈ exactCons1.Series) &&
        decide (exactCons1.Version = tm.Version))).map (setFullPath sampleSource) :=
  ⟨by decide, select_exact_version (fun _ => false) sampleSource
    [mdDupA, mdOldResolved2] exactCons1 (by decide)⟩

/-- C3: with a family constraint the matcher keeps, from a batch,
exactly the records in the requested series set that are not excluded
by the released/development filter, the major-version filter, or the
minor-version filter (a negative field is unconstrained), each with its
resolved location recomputed. -/
theorem select_family (isDev : Number → Bool) (source : DataSource)
    (tools : List ToolsMetadata) (cons : ToolsConstraint)
    (h : cons.Version = Number.zero) :
    appendMatchingTools isDev source [] tools cons =
      (tools.filter (fun tm =>
        decide (tm.Release ∈ cons.Series) &&
        (decide ¬(cons.Released = true ∧ isDev tm.Version = true) &&
         decide (cons.MajorVersion < 0 ∨ cons.MajorVersion = tm.Version.major) &&
         decide (cons.MinorVersion < 0 ∨ cons.MinorVersion = tm.Version.minor)))).map
        (setFullPath source) := by
  rw [appendMatchingTools_eq, List.nil_append]
  have hcongr : ∀ tm ∈ tools,
      (decide (tm.Release ∈ cons.Series) && versionMatches isDev cons tm &&
        (mapLookup (loadMap [] ([] : List ToolsMetadata)) tm.binary).isNone) =
      (decide (tm.Release ∈ cons.Series) &&
        (decide ¬(cons.Released = true ∧ isDev tm.Version = true) &&
         decide (cons.MajorVersion < 0 ∨ cons.MajorVersion = tm.Version.major) &&
         decide (cons.MinorVersion < 0 ∨ cons.MinorVersion = tm.Version.minor))) := by
    intro tm _
    rw [versionMatches_family isDev cons tm h]
    simp [loadMap, mapLookup, Bool.and_assoc]
  rw [List.filter_congr hcongr]

/-- Witness for C3: a released-only 1.0 family constraint applied to a
batch holding a 1.0.0 release and a 2.0.0 release. -/
theorem select_family_witness :
    familyCons.Version = Number.zero ∧
    appendMatchingTools (fun n => decide (0 < n.build)) sampleSource []
        [mdDupA, mdOldResolved2] familyCons =
      (([mdDupA, mdOldResolved2]).filter (fun tm =>
        decide (tm.Release ∈ familyCons.Series) &&
        (decide ¬(familyCons.Released = true ∧ decide (0 < tm.Version.build) = true) &&
         decide (familyCons.MajorVersion < 0 ∨ familyCons.MajorVersion = tm.Version.major) &&
         decide (familyCons.MinorVersion < 0 ∨
           familyCons.MinorVersion = tm.Version.minor)))).map (setFullPath sampleSource) :=
  ⟨by decide, select_family (fun n => decide (0 < n.build)) sampleSource
    [mdDupA, mdOldResolved2] familyCons (by decide)⟩

/-! ### Multi-source deduplication -/

theorem mapLookup_mapInsert_eq_none_iff (m : List (Binary × ToolsMetadata))
    (k₀ k : Binary) (v : ToolsMetadata) :
    mapLookup (mapInsert m k₀ v) k = none ↔ (k₀ ≠ k ∧ mapLookup m k = none) := by
  by_cases h : k₀ = k
  · subst h
    simp [mapLookup_mapInsert_self]
  · simp [mapLookup_mapInsert_ne m k₀ k v (fun he => h he.symm), h]

theorem mapLookup_loadMap_eq_none_iff (l : List ToolsMetadata)
    (init : List (Binary × ToolsMetadata)) (k : Binary) :
    mapLookup (loadMap init l) k = none ↔
      (mapLookup init k = none ∧ k ∉ l.map ToolsMetadata.binary) := by
  induction l generalizing init with
  | nil => simp [loadMap]
  | cons x xs ih =>
    rw [show loadMap init (x :: xs) = loadMap (mapInsert init x.binary x) xs from rfl,
      ih, mapLookup_mapInsert_eq_none_iff]
    simp only [List.map_cons, List.mem_cons]
    constructor
    · rintro ⟨⟨hne, hnone⟩, hnot⟩
      refine ⟨hnone, ?_⟩
      rintro (rfl | hm)
      · exact hne rfl
      · exact hnot hm
    · rintro ⟨hnone, hnot⟩
      exact ⟨⟨fun he => hnot (Or.inl he.symm), hnone⟩, fun hm => hnot (Or.inr hm)⟩

theorem binary_setFullPath (source : DataSource) (tm : ToolsMetadata) :
    (setFullPath source tm).binary = tm.binary := rfl

theorem map_binary_map_setFullPath (source : DataSource) (l : List ToolsMetadata) :
    (l.map (setFullPath source)).map ToolsMetadata.binary = l.map ToolsMetadata.binary := by
  rw [List.map_map]
  exact List.map_congr_left (fun tm _ => binary_setFullPath source tm)

/-- The batch records appended by one `appendMatchingTools` call all
carry identity keys absent from the list accumulated before the call. -/
theorem appendMatchingTools_extends (isDev : Number → Bool) (source : DataSource)
    (acc tools : List ToolsMetadata) (cons : ToolsConstraint) :
    ∃ s, appendMatchingTools isDev source acc tools cons = acc ++ s ∧
      ∀ tm ∈ s, tm.binary ∉ acc.map ToolsMetadata.binary := by
  refine ⟨_, appendMatchingTools_eq isDev source acc tools cons, ?_⟩
  intro tm htm
  obtain ⟨tm₀, htm₀, rfl⟩ := List.mem_map.mp htm
  have hp := List.of_mem_filter htm₀
  have h3 : (mapLookup (loadMap [] acc) tm₀.binary).isNone = true :=
    (Bool.and_eq_true _ _ |>.mp hp).2
  rw [binary_setFullPath]
  exact ((mapLookup_loadMap_eq_none_iff acc [] tm₀.binary).mp
    (Option.isNone_iff_eq_none.mp h3)).2

/-- One `appendMatchingTools` call preserves key uniqueness when the
batch's own keys are duplicate-free. -/
theorem appendMatchingTools_nodup (isDev : Number → Bool) (source : DataSource)
    (acc tools : List ToolsMetadata) (cons : ToolsConstraint)
    (hacc : (acc.map ToolsMetadata.binary).Nodup)
    (htools : (tools.map ToolsMetadata.binary).Nodup) :
    ((appendMatchingTools isDev source acc tools cons).map ToolsMetadata.binary).Nodup := by
  obtain ⟨s, hs, hfresh⟩ := appendMatchingTools_extends isDev source acc tools cons
  rw [hs, List.map_append]
  refine List.Nodup.append hacc ?_ ?_
  · have hsub : List.Sublist (s.map ToolsMetadata.binary) (tools.map ToolsMetadata.binary) := by
      have : s = (tools.filter (fun tm =>
          decide (tm.Release ∈ cons.Series) && versionMatches isDev cons tm &&
          (mapLookup (loadMap [] acc) tm.binary).isNone)).map (setFullPath source) := by
        have := appendMatchingTools_eq isDev source acc tools cons
        rw [hs] at this
        exact List.append_cancel_left this
      rw [this, map_binary_map_setFullPath]
      exact List.Sublist.map ToolsMetadata.binary (List.filter_sublist tools)
    exact htools.sublist hsub
  · rw [List.disjoint_right]
    intro k hk
    obtain ⟨tm, htm, rfl⟩ := List.mem_map.mp hk
    exact hfresh tm htm

/-- Folding further batches only appends records, and every appended
record's key is absent from the starting accumulator. -/
theorem foldl_batches_extends (isDev : Number → Bool) (cons : ToolsConstraint)
    (bs : List (DataSource × List ToolsMetadata)) (acc : List ToolsMetadata) :
    ∃ s, bs.foldl (fun a b => appendMatchingTools isDev b.1 a b.2 cons) acc = acc ++ s ∧
      ∀ tm ∈ s, tm.binary ∉ acc.map ToolsMetadata.binary := by
  induction bs generalizing acc with
  | nil => exact ⟨[], by simp⟩
  | cons b bs ih =>
    obtain ⟨s₁, he₁, hf₁⟩ := appendMatchingTools_extends isDev b.1 acc b.2 cons
    obtain ⟨s₂, he₂, hf₂⟩ := ih (acc ++ s₁)
    refine ⟨s₁ ++ s₂, ?_, ?_⟩
    · rw [List.foldl_cons, he₁, he₂, List.append_assoc]
    · intro tm htm
      rcases List.mem_append.mp htm with hmem | hmem
      · exact hf₁ tm hmem
      · intro hk
        exact hf₂ tm hmem (by rw [List.map_append]; exact List.mem_append_left _ hk)

theorem foldl_batches_nodup (isDev : Number → Bool) (cons : ToolsConstraint)
    (bs : List (DataSource × List ToolsMetadata)) (acc : List ToolsMetadata)
    (hacc : (acc.map ToolsMetadata.binary).Nodup)
    (h : ∀ b ∈ bs, ((b.2.map ToolsMetadata.binary).Nodup)) :
    (((bs.foldl (fun a b => appendMatchingTools isDev b.1 a b.2 cons) acc)).map
      ToolsMetadata.binary).Nodup := by
  induction bs generalizing acc with
  | nil => exact hacc
  | cons b bs ih =>
    rw [List.foldl_cons]
    exact ih _ (appendMatchingTools_nodup isDev b.1 acc b.2 cons hacc
        (h b (List.mem_cons_self _ _)))
      (fun b' hb' => h b' (List.mem_cons_of_mem _ hb'))

/-- Counterexample to C4 as stated: one source whose batch holds two
records sharing the identity key (1.0.0, precise, amd64) but differing
in path — both are appended, because the dedup map is built once per
call from earlier accumulation and is not updated within the batch, so
the returned list holds two descriptors with the same identity key. -/
theorem select_dedup_counterexample :
    ¬ ((selectFromSources (fun _ => false) exactCons1
        [(sampleSource, [mdDupA, mdDupB])]).map ToolsMetadata.binary).Nodup := by
  decide

/-- C4 amended: provided each individual source's batch carries at most
one record per identity key, the accumulated result holds at most one
descriptor per identity key; and unconditionally, processing further
sources only appends records whose keys are not already present, so an
earlier (higher-priority) source's descriptor is the one retained. -/
theorem select_dedup (isDev : Number → Bool) (cons : ToolsConstraint)
    (bs₁ bs₂ : List (DataSource × List ToolsMetadata))
    (h : ∀ b ∈ bs₁ ++ bs₂, ((b.2.map ToolsMetadata.binary).Nodup)) :
    ((selectFromSources isDev cons (bs₁ ++ bs₂)).map ToolsMetadata.binary).Nodup ∧
    ∃ s, selectFromSources isDev cons (bs₁ ++ bs₂) =
        selectFromSources isDev cons bs₁ ++ s ∧
      ∀ tm ∈ s, tm.binary ∉ (selectFromSources isDev cons bs₁).map ToolsMetadata.binary := by
  constructor
  · exact foldl_batches_nodup isDev cons (bs₁ ++ bs₂) [] (by simp) h
  · unfold selectFromSources
    rw [List.foldl_append]
    exact foldl_batches_extends isDev cons bs₂ _

/-- Witness for C4's amended claim: two single-record batches sharing
one identity key — the second source's record is discarded and the keys
of the result are unique. -/
theorem select_dedup_witness :
    ((selectFromSources (fun _ => false) exactCons1
        [(sampleSource, [mdDupA]), (sampleSource, [mdDupB])]).map
      ToolsMetadata.binary).Nodup := by
  have h := select_dedup (fun _ => false) exactCons1 [(sampleSource, [mdDupA])]
    [(sampleSource, [mdDupB])] ?_
  · exact h.1
  · intro b hb
    rcases List.mem_cons.mp hb with rfl | hb'
    · decide
    · rcases List.mem_cons.mp hb' with rfl | hb''
      · decide
      · exact absurd hb'' (List.not_mem_nil b)

end Juju
